import Mathlib

/-!
Verification development for the job-bot matching and deduplication pipeline.

The Python sources are shallowly embedded:
  * src/services/deduplicator.py : text normalization, content hashing (SHA-256),
    duplicate checks against the processed-message ledger;
  * src/core/database.py         : the processed_messages table (UNIQUE(channel_id,
    message_id), INSERT OR IGNORE semantics) as a list of records;
  * src/services/cv_matcher.py   : the scoring pipeline (semantic + keyword +
    rule adjustments, clamped to [0, 100]);
  * src/services/job_classifier.py : keyword-count job classification;
  * src/core/models.py           : the data model (JobPost, UserFilters, MatchResult).

Conventions: Python floats are modelled as rationals; Python ints as Int/Nat;
text as Lean String / List Char (str.lower is modelled for the ASCII range, which
covers every character the embedded regular expressions distinguish); the regular
expressions used by the sources (https?://\S+, \S+@\S+\.\S+, \b\d+\b, the query
stripper \?.*$) are implemented as explicit left-to-right scanners with the same
leftmost, non-overlapping, greedy semantics.
-/

namespace JobBot

/-! ### Character-level helpers (Python str semantics, ASCII range) -/

/-- Python str.lower for the ASCII range: maps A-Z to a-z, leaves the rest. -/
def asciiLowerCh (c : Char) : Char :=
  if 'A' ≤ c ∧ c ≤ 'Z' then Char.ofNat (c.toNat + 32) else c

/-- Lowercase a character list (model of str.lower()). -/
def lowerL (cs : List Char) : List Char := cs.map asciiLowerCh

/-- Python whitespace characters recognized by str.split() (ASCII range). -/
def isSpaceCh (c : Char) : Bool :=
  c == ' ' || c == '\t' || c == '\n' || c == '\r' || c == '\x0b' || c == '\x0c'

/-- Regex word character \w (ASCII range): letters, digits, underscore. -/
def isWordCh (c : Char) : Bool := c.isAlpha || c.isDigit || c == '_'

/-- Contiguous-substring test on character lists, i.e. the Python operator
needle in haystack.  Empty needle matches everywhere. -/
def substrL (needle haystack : List Char) : Bool :=
  needle.isPrefixOf haystack ||
    match haystack with
    | [] => needle.isEmpty
    | _ :: t => substrL needle t

/-- Python needle in haystack on strings (case preserved). -/
def substrS (needle haystack : String) : Bool := substrL needle.data haystack.data

/-- Model of str.lower() on strings. -/
def pyLower (s : String) : String := String.mk (lowerL s.data)

/-! ### The deduplicator's text normalizer (src/services/deduplicator.py,
Deduplicator._normalize_text, lines 97-136) -/

/-- One attempted match of the regex https?://\S+ at the head of the list:
returns the matched URL together with the remaining characters.  The pattern
requires the literal scheme prefix followed by at least one non-space character;
\S+ is greedy (extends to the end of the non-space run). -/
def urlMatchAt (cs : List Char) : Option (List Char × List Char) :=
  let p8 : List Char := ['h', 't', 't', 'p', 's', ':', '/', '/']
  let p7 : List Char := ['h', 't', 't', 'p', ':', '/', '/']
  if p8.isPrefixOf cs then
    let rest := cs.drop 8
    let tk := rest.takeWhile (fun c => !isSpaceCh c)
    if tk.isEmpty then none else some (p8 ++ tk, rest.drop tk.length)
  else if p7.isPrefixOf cs then
    let rest := cs.drop 7
    let tk := rest.takeWhile (fun c => !isSpaceCh c)
    if tk.isEmpty then none else some (p7 ++ tk, rest.drop tk.length)
  else none

/-- Left-to-right non-overlapping scan of the regex https?://\S+, with explicit
fuel (structural recursion, so that the kernel evaluates it; the fuel never runs
out when it starts at the input length, see urlScanF_fuel). -/
def urlScanF (fuel : Nat) (cs : List Char) : List (List Char) × List Char :=
  match fuel, cs with
  | 0, cs => ([], cs)
  | _ + 1, [] => ([], [])
  | fuel + 1, c :: rest =>
    match urlMatchAt (c :: rest) with
    | some (url, after) => (url :: (urlScanF fuel after).1, (urlScanF fuel after).2)
    | none => ((urlScanF fuel rest).1, c :: (urlScanF fuel rest).2)

/-- re.findall and re.sub of https?://\S+ in one scan: the list of matches and
the text with the matches removed. -/
def urlScan (cs : List Char) : List (List Char) × List Char := urlScanF cs.length cs

/-- Does a whitespace-free token match the email regex \S+@\S+\.\S+ ?
Equivalently (for a token of non-space characters): there is an at-sign at some
index i with at least one character before it, and a dot at some index j with at
least one character between the at-sign and the dot and at least one after the
dot.  Matching inside a token always extends to the whole token (the leading and
trailing \S+ are greedy and the scan position is leftmost), so re.sub removes the
whole token. -/
def tokenHasEmail (t : List Char) : Bool :=
  (List.range t.length).any fun i =>
    decide (1 ≤ i) && (t.getD i ' ' == '@') &&
      (List.range t.length).any fun j =>
        decide (i + 2 ≤ j) && decide (j + 2 ≤ t.length) && (t.getD j ' ' == '.')

/-- Split a text into maximal runs of non-space characters (its tokens) and the
interleaved whitespace, apply f to each token, and reassemble (fuelled).  The
whitespace is reproduced verbatim, mirroring re.sub which touches only the
matched spans. -/
def mapTokensF (f : List Char → List Char) (fuel : Nat) (cs : List Char) : List Char :=
  match fuel, cs with
  | 0, cs => cs
  | _ + 1, [] => []
  | fuel + 1, c :: rest =>
    if isSpaceCh c then c :: mapTokensF f fuel rest
    else
      f (c :: rest.takeWhile (fun d => !isSpaceCh d)) ++
        mapTokensF f fuel (rest.dropWhile (fun d => !isSpaceCh d))

/-- Token-wise rewriting of a text. -/
def mapTokens (f : List Char → List Char) (cs : List Char) : List Char :=
  mapTokensF f cs.length cs

/-- re.sub(r"\S+@\S+\.\S+", "", text): erase every token that matches the email
pattern (a match always covers a whole maximal non-space run, see tokenHasEmail). -/
def emailSub (cs : List Char) : List Char :=
  mapTokens (fun t => if tokenHasEmail t then [] else t) cs

/-- re.sub(r"\b\d+\b", "", text): erase every maximal digit run whose two
neighbours (when they exist) are both non-word characters; \d+ cannot match a
proper sub-run because the inner positions of a digit run are never word
boundaries.  prev carries the character preceding the scan position in the
original text, since re computes boundaries on the unmodified input. -/
def numberSubF (fuel : Nat) (prev : Option Char) (cs : List Char) : List Char :=
  match fuel, cs with
  | 0, cs => cs
  | _ + 1, [] => []
  | fuel + 1, c :: rest =>
    if c.isDigit then
      let run := c :: rest.takeWhile Char.isDigit
      let rest2 := rest.dropWhile Char.isDigit
      let beforeOk := match prev with
        | none => true
        | some p => !isWordCh p
      let afterOk := match rest2 with
        | [] => true
        | d :: _ => !isWordCh d
      let tl := numberSubF fuel (some (run.getLastD c)) rest2
      if beforeOk && afterOk then tl else run ++ tl
    else
      c :: numberSubF fuel (some c) rest

/-- re.sub(r"\b\d+\b", "", text) from the start of the text. -/
def numberSub (cs : List Char) : List Char := numberSubF cs.length none cs

def pyWordsF (fuel : Nat) (cs : List Char) : List (List Char) :=
  match fuel, cs with
  | 0, _ => []
  | _ + 1, [] => []
  | fuel + 1, c :: rest =>
    if isSpaceCh c then pyWordsF fuel rest
    else
      (c :: rest.takeWhile (fun d => !isSpaceCh d)) ::
        pyWordsF fuel (rest.dropWhile (fun d => !isSpaceCh d))

/-- The tokens of a text: str.split() with no arguments (split on whitespace
runs, dropping empty pieces). -/
def pyWords (cs : List Char) : List (List Char) := pyWordsF cs.length cs

/-- Python " ".join(pieces): the pieces separated by single spaces. -/
def joinSp (ws : List (List Char)) : List Char :=
  match ws with
  | [] => []
  | [w] => w
  | w :: rest => w ++ ' ' :: joinSp rest

/-- " ".join(text.split()).strip(): collapse every whitespace run to a single
space and trim the ends (the final strip is a no-op after the join). -/
def collapseWs (cs : List Char) : List Char :=
  joinSp (pyWords cs)

/-- One URL's normalization in the fallback branch: re.sub(r"\?.*$", "", url)
removes everything from the first question mark (URLs contain no newline, so
.* reaches the end), then url.rstrip("/") drops all trailing slashes. -/
def normalizeUrl (u : List Char) : List Char :=
  (u.takeWhile (fun c => c ≠ '?')).reverse.dropWhile (fun c => c = '/') |>.reverse

/-- Deduplicator._normalize_text (deduplicator.py lines 97-136): lowercase,
extract then strip URLs, strip emails, strip standalone numbers, collapse
whitespace; if the residual is shorter than 20 characters and at least one URL
was found, the signature is instead the joined normalized URLs. -/
def normalizeCore (cs : List Char) : List Char :=
  let lowered := lowerL cs
  let scanned := urlScan lowered
  let urls := scanned.1
  let noUrls := scanned.2
  let noEmails := emailSub noUrls
  let noNums := numberSub noEmails
  let residual := collapseWs noNums
  if residual.length < 20 && !urls.isEmpty then
    joinSp (urls.map normalizeUrl)
  else residual

/-- String-level wrapper of the text normalizer. -/
def normalizeText (s : String) : String := String.mk (normalizeCore s.data)

/-! ### SHA-256 (hashlib.sha256(...).hexdigest() in
Deduplicator._compute_content_hash).  32-bit words are Nat values reduced
modulo 2^32. -/

/-- Reduce to a 32-bit word. -/
def w32 (n : Nat) : Nat := n % 4294967296

/-- Right rotation of a 32-bit word. -/
def rotr32 (x n : Nat) : Nat := w32 ((x >>> n) ||| (x <<< (32 - n)))

/-- Bitwise complement of a 32-bit word. -/
def not32 (x : Nat) : Nat := 4294967295 - x

def shaCh (x y z : Nat) : Nat := Nat.xor (Nat.land x y) (Nat.land (not32 x) z)

def shaMaj (x y z : Nat) : Nat :=
  Nat.xor (Nat.xor (Nat.land x y) (Nat.land x z)) (Nat.land y z)

def bigSigma0 (x : Nat) : Nat := Nat.xor (Nat.xor (rotr32 x 2) (rotr32 x 13)) (rotr32 x 22)

def bigSigma1 (x : Nat) : Nat := Nat.xor (Nat.xor (rotr32 x 6) (rotr32 x 11)) (rotr32 x 25)

def smallSigma0 (x : Nat) : Nat := Nat.xor (Nat.xor (rotr32 x 7) (rotr32 x 18)) (x >>> 3)

def smallSigma1 (x : Nat) : Nat := Nat.xor (Nat.xor (rotr32 x 17) (rotr32 x 19)) (x >>> 10)

/-- The 64 SHA-256 round constants. -/
def shaK : List Nat :=
  [1116352408, 1899447441, 3049323471, 3921009573, 961987163, 1508970993,
   2453635748, 2870763221, 3624381080, 310598401, 607225278, 1426881987,
   1925078388, 2162078206, 2614888103, 3248222580, 3835390401, 4022224774,
   264347078, 604807628, 770255983, 1249150122, 1555081692, 1996064986,
   2554220882, 2821834349, 2952996808, 3210313671, 3336571891, 3584528711,
   113926993, 338241895, 666307205, 773529912, 1294757372, 1396182291,
   1695183700, 1986661051, 2177026350, 2456956037, 2730485921, 2820302411,
   3259730800, 3345764771, 3516065817, 3600352804, 4094571909, 275423344,
   430227734, 506948616, 659060556, 883997877, 958139571, 1322822218,
   1537002063, 1747873779, 1955562222, 2024104815, 2227730452, 2361852424,
   2428436474, 2756734187, 3204031479, 3329325298]

/-- The SHA-256 initial hash value. -/
def shaH0 : List Nat :=
  [1779033703, 3144134277, 1013904242, 2773480762,
   1359893119, 2600822924, 528734635, 1541459225]

/-- SHA-256 message padding over a byte list: append 0x80, zero bytes to reach
56 mod 64, then the bit length as 8 big-endian bytes. -/
def shaPad (msg : List Nat) : List Nat :=
  let l := msg.length
  let zeros := (55 + 64 - l % 64) % 64
  let bitLen := 8 * l
  msg ++ [0x80] ++ List.replicate zeros 0 ++
    [bitLen >>> 56 % 256, bitLen >>> 48 % 256, bitLen >>> 40 % 256, bitLen >>> 32 % 256,
     bitLen >>> 24 % 256, bitLen >>> 16 % 256, bitLen >>> 8 % 256, bitLen % 256]

/-- Group a padded byte list into 32-bit big-endian words. -/
def bytesToWords (bs : List Nat) : List Nat :=
  match bs with
  | b0 :: b1 :: b2 :: b3 :: rest =>
    (b0 <<< 24 ||| b1 <<< 16 ||| b2 <<< 8 ||| b3) :: bytesToWords rest
  | _ => []

/-- Extend 16 message words to the 64-entry message schedule. -/
def shaSchedule (ws : List Nat) (t : Nat) : List Nat :=
  match t with
  | 0 => ws
  | n + 1 =>
    let prior := shaSchedule ws n
    let i := prior.length
    prior ++ [w32 (smallSigma1 (prior.getD (i - 2) 0) + prior.getD (i - 7) 0 +
      smallSigma0 (prior.getD (i - 15) 0) + prior.getD (i - 16) 0)]

/-- One round of the SHA-256 compression function. -/
def shaRound (st : List Nat) (kw : Nat × Nat) : List Nat :=
  match st with
  | [a, b, c, d, e, f, g, h] =>
    let t1 := w32 (h + bigSigma1 e + shaCh e f g + kw.1 + kw.2)
    let t2 := w32 (bigSigma0 a + shaMaj a b c)
    [w32 (t1 + t2), a, b, c, w32 (d + t1), e, f, g]
  | other => other

/-- Process one 16-word block. -/
def shaBlock (h : List Nat) (blockWords : List Nat) : List Nat :=
  let ws := shaSchedule blockWords 48
  let st := (shaK.zip ws).foldl shaRound h
  (h.zip st).map fun p => w32 (p.1 + p.2)

def chunk16F (fuel : Nat) (ws : List Nat) : List (List Nat) :=
  match fuel, ws with
  | 0, _ => []
  | _ + 1, [] => []
  | fuel + 1, c :: rest => (c :: rest).take 16 :: chunk16F fuel ((c :: rest).drop 16)

/-- Split a word list into 16-word blocks. -/
def chunk16 (ws : List Nat) : List (List Nat) := chunk16F ws.length ws

/-- SHA-256 of a byte list: eight 32-bit hash words. -/
def sha256Words (msg : List Nat) : List Nat :=
  (chunk16 (bytesToWords (shaPad msg))).foldl shaBlock shaH0

/-- Lowercase hexadecimal digit. -/
def hexDigit (n : Nat) : Char :=
  "0123456789abcdef".data.getD (n % 16) '0'

/-- A 32-bit word as eight lowercase hex characters. -/
def wordToHex (w : Nat) : List Char :=
  [hexDigit (w >>> 28), hexDigit (w >>> 24), hexDigit (w >>> 20), hexDigit (w >>> 16),
   hexDigit (w >>> 12), hexDigit (w >>> 8), hexDigit (w >>> 4), hexDigit w]

/-- hashlib hexdigest of a byte list. -/
def sha256Hex (msg : List Nat) : String :=
  String.mk ((sha256Words msg).map wordToHex).flatten

/-- UTF-8 encoding of one character (str.encode("utf-8") per code point). -/
def utf8Bytes (c : Char) : List Nat :=
  let n := c.toNat
  if n < 128 then [n]
  else if n < 2048 then [192 + n / 64, 128 + n % 64]
  else if n < 65536 then [224 + n / 4096, 128 + n / 64 % 64, 128 + n % 64]
  else [240 + n / 262144, 128 + n / 4096 % 64, 128 + n / 64 % 64, 128 + n % 64]

/-- str.encode("utf-8") as a byte list. -/
def strUtf8 (s : String) : List Nat := (s.data.map utf8Bytes).flatten

/-- Deduplicator._compute_content_hash (deduplicator.py lines 78-95):
sha256 of the utf-8 bytes of the normalized text, as a hex digest. -/
def computeContentHash (text : String) : String :=
  sha256Hex (strUtf8 (normalizeText text))

/-! ### Data model (src/core/models.py) -/

/-- models.SeniorityLevel. -/
inductive SeniorityLevel where
  | intern | junior | mid | senior | lead | principal | manager | director | vp | executive
deriving DecidableEq, Repr

/-- The .value string of each SeniorityLevel member. -/
def SeniorityLevel.value : SeniorityLevel → String
  | .intern => "intern"
  | .junior => "junior"
  | .mid => "mid"
  | .senior => "senior"
  | .lead => "lead"
  | .principal => "principal"
  | .manager => "manager"
  | .director => "director"
  | .vp => "vp"
  | .executive => "executive"

/-- models.RemotePreference. -/
inductive RemotePreference where
  | yes | no | any
deriving DecidableEq, Repr

/-- models.JobPost: the extracted job-post fields.  Optional[str] / Optional[bool] /
Optional[SeniorityLevel] fields become Option. -/
structure JobPost where
  roleTitle : Option String := none
  company : Option String := none
  location : Option String := none
  isRemote : Option Bool := none
  seniority : Option SeniorityLevel := none
  salaryInfo : Option String := none
  requirements : Option String := none
  applicationLink : Option String := none
  rawText : String := ""
deriving DecidableEq, Repr

/-- models.UserFilters with its defaults. -/
structure UserFilters where
  keywords : List String := []
  excluded : List String := []
  locations : List String := []
  seniorities : List SeniorityLevel := []
  remote : RemotePreference := RemotePreference.any
  threshold : Int := 70
deriving DecidableEq, Repr

/-- models.MatchResult (score is the Python int; the sub-scores are floats,
modelled as rationals). -/
structure MatchResult where
  score : Int
  matchReasons : List String := []
  filterReasons : List String := []
  semanticScore : ℚ := 0
  keywordScore : ℚ := 0
deriving DecidableEq, Repr

/-! ### The matcher (src/services/cv_matcher.py, class CVMatcher) -/

/-- CVMatcher scoring constants (cv_matcher.py lines 40-48). -/
def MAX_SEMANTIC_SCORE : ℚ := 60

def KEYWORD_BONUS : Nat := 7

def REMOTE_MATCH_BONUS : Int := 10

def SENIORITY_MATCH_BONUS : Int := 5

def EXCLUDED_KEYWORD_PENALTY : Int := -10

def LOCATION_MISMATCH_PENALTY : Int := -10

/-- Python str.upper for one ASCII character. -/
def asciiUpperCh (c : Char) : Char :=
  if 'a' ≤ c ∧ c ≤ 'z' then Char.ofNat (c.toNat - 32) else c

/-- Python str.title() restricted to the single lowercase words it is applied to
here (the SeniorityLevel values): capitalize the first character. -/
def pyTitle (s : String) : String :=
  match s.data with
  | [] => ""
  | c :: t => String.mk (asciiUpperCh c :: t)

/-- cv_matcher.py lines 228-234: the remote-preference block of _apply_rules.
Returns its score delta and appended match reasons.  Python truthiness:
`job_post.is_remote` is truthy only for True, and the second branch tests
`is_remote is False` exactly. -/
def remoteRule (post : JobPost) (filters : UserFilters) : Int × List String :=
  if filters.remote = RemotePreference.yes ∧ post.isRemote = some true then
    (REMOTE_MATCH_BONUS, ["Remote-friendly position"])
  else if filters.remote = RemotePreference.no ∧ post.isRemote = some false then
    (REMOTE_MATCH_BONUS, ["On-site position (as preferred)"])
  else
    (0, [])

/-- cv_matcher.py lines 236-247: the seniority block of _apply_rules.
Returns (delta, match reasons, filter reasons). -/
def seniorityRule (post : JobPost) (filters : UserFilters) : Int × List String × List String :=
  match post.seniority with
  | some s =>
    if filters.seniorities ≠ [] then
      if s ∈ filters.seniorities then
        (SENIORITY_MATCH_BONUS, [pyTitle s.value ++ " level (matches preference)"], [])
      else
        (0, [],
          ["Seniority: " ++ s.value ++ " (wanted: " ++
            String.intercalate ", " (filters.seniorities.map SeniorityLevel.value) ++ ")"])
    else (0, [], [])
  | none => (0, [], [])

/-- cv_matcher.py lines 249-255: the loop over filters.excluded with its break —
the first excluded keyword that substring-matches the lowercased post text. -/
def firstExcludedMatch (excluded : List String) (jobTextLower : String) : Option String :=
  excluded.find? fun kw => substrS (pyLower kw) jobTextLower

/-- The excluded-keyword block of _apply_rules: −10 and one filter reason for the
first match, nothing otherwise. -/
def excludedRule (post : JobPost) (filters : UserFilters) : Int × List String :=
  match firstExcludedMatch filters.excluded (pyLower post.rawText) with
  | some kw => (EXCLUDED_KEYWORD_PENALTY, ["Contains excluded keyword: " ++ kw])
  | none => (0, [])

/-- cv_matcher.py lines 257-264: the required-keyword block of _apply_rules:
one match reason per hit, plus min(hits * 4, 12) once. -/
def requiredRule (post : JobPost) (filters : UserFilters) : Int × List String :=
  let hits := filters.keywords.filter fun kw => substrS (pyLower kw) (pyLower post.rawText)
  (min ((hits.length : Int) * 4) 12, hits.map fun kw => "Contains required keyword: " ++ kw)

/-- cv_matcher.py lines 266-279: the location block of _apply_rules.  Python
truthiness: the block runs only when filters.locations is non-empty and
job_post.location is a non-empty string; `elif not job_post.is_remote` is taken
for both False and None. -/
def locationRule (post : JobPost) (filters : UserFilters) : Int × List String × List String :=
  match post.location with
  | some loc =>
    if filters.locations ≠ [] ∧ loc ≠ "" then
      if filters.locations.any (fun l => substrS (pyLower l) (pyLower loc)) then
        (0, ["Location: " ++ loc], [])
      else if post.isRemote ≠ some true then
        (LOCATION_MISMATCH_PENALTY, [],
          ["Location: " ++ loc ++ " (wanted: " ++ String.intercalate ", " filters.locations ++ ")"])
      else (0, [], [])
    else (0, [], [])
  | none => (0, [], [])

/-- CVMatcher._apply_rules (cv_matcher.py lines 220-281).  The source accumulates
adjustment / match_reasons / filter_reasons through five independent blocks in
this order; each block reads only the post and the filters, so the function is
their ordered combination: match reasons from remote, seniority, required,
location; filter reasons from seniority, excluded, location. -/
def applyRules (post : JobPost) (filters : UserFilters) : Int × List String × List String :=
  let r := remoteRule post filters
  let s := seniorityRule post filters
  let e := excludedRule post filters
  let q := requiredRule post filters
  let l := locationRule post filters
  (r.1 + s.1 + e.1 + q.1 + l.1,
   r.2 ++ s.2.1 ++ q.2 ++ l.2.1,
   s.2.2 ++ e.2 ++ l.2.2)

/-- CVMatcher._calculate_keyword_score (cv_matcher.py lines 204-218), with the
two skill sets (the regex-catalog extraction of _extract_skills, which runs over
the external re module, is abstracted into the two inputs): intersect, cap the
count at 8, weight by KEYWORD_BONUS = 7. -/
def calculateKeywordScore (jobSkills cvSkills : Finset String) : ℚ × Finset String :=
  let matched := cvSkills ∩ jobSkills
  let numMatches := min matched.card 8
  (((numMatches * KEYWORD_BONUS : Nat) : ℚ), matched)

/-- Python int() on a float: truncation toward zero, on our rational model. -/
def pyTrunc (q : ℚ) : Int := if 0 ≤ q then ⌊q⌋ else -⌊-q⌋

/-- CVMatcher per-user CV data: the stored text and derived skill set (the
embedding lives in the external model and enters match only through the cosine
similarity, which is an input below). -/
structure UserCVData where
  cvText : String := ""
  skills : Finset String := ∅
deriving DecidableEq

/-- CVMatcher.match (cv_matcher.py lines 119-180).  cv is the per-user CV lookup
(none when has_cv is false); similarity is the cosine similarity the external
embedding model returns for (cv, post text); jobSkills is the skill set
_extract_skills finds in the post text.  The listing order of matched skills in
the Skills-match reason is unspecified in Python (set iteration); the model fixes
the canonical sorted order. -/
def matchJob (cv : Option UserCVData) (similarity : ℚ) (jobSkills : Finset String)
    (post : JobPost) (filtersOpt : Option UserFilters) : MatchResult :=
  match cv with
  | none =>
    { score := 0, matchReasons := ["No CV set"], filterReasons := [],
      semanticScore := 0, keywordScore := 0 }
  | some cvData =>
    let filters := filtersOpt.getD {}
    let semantic0 := similarity * MAX_SEMANTIC_SCORE
    let semanticScore := if post.rawText.length < 400 then semantic0 * (115 / 100) else semantic0
    let kw := calculateKeywordScore jobSkills cvData.skills
    let rules := applyRules post filters
    let total0 := pyTrunc (semanticScore + kw.1 + (rules.1 : ℚ))
    let totalScore := max 0 (min 100 total0)
    let matchReasons :=
      if kw.2 ≠ ∅ then
        ("Skills match: " ++
          String.intercalate ", " ((kw.2.sort (· ≤ ·)).take 5)) :: rules.2.1
      else rules.2.1
    { score := totalScore,
      matchReasons := matchReasons.take 5,
      filterReasons := rules.2.2,
      semanticScore := semanticScore,
      keywordScore := kw.1 }

/-! ### The classifier (src/services/job_classifier.py, JobClassifier) -/

/-- JobClassifier.JOB_KEYWORDS (job_classifier.py lines 16-94), a Python set
literal, as a list. -/
def JOB_KEYWORDS : List String :=
  ["hiring", "vacancy", "job opening", "position available",
   "we\x27re looking for", "we are looking for", "join our team", "apply now",
   "send your cv", "send cv", "submit resume", "open position", "job opportunity",
   "career opportunity", "open role",
   "developer", "engineer", "designer", "analyst", "manager", "coordinator",
   "specialist", "consultant", "architect", "researcher", "scientist", "trader", "quant",
   "requirements", "qualifications", "experience required", "must have",
   "skills required", "what we expect", "what you\x27ll need", "responsibilities",
   "about the role", "role overview", "job description", "what you\x27ll do",
   "your responsibilities",
   "full-time", "fulltime", "part-time", "parttime", "contract", "freelance",
   "remote", "hybrid", "on-site", "onsite", "permanent",
   "salary", "compensation", "benefits", "competitive pay", "equity", "stock options",
   "how to apply", "to apply", "apply for this", "application", "interview",
   "candidate", "submit your", "apply here",
   "web3", "blockchain", "defi", "crypto"]

/-- JobClassifier.MIN_KEYWORDS. -/
def MIN_KEYWORDS : Nat := 2

/-- JobClassifier.is_job_post (job_classifier.py lines 146-170): lowercase the
text, collect the vocabulary entries contained in it, classify by comparing the
count against the configured minimum. -/
def isJobPost (minKeywords : Nat) (text : String) : Bool × Nat :=
  let textLower := pyLower text
  let matchedKeywords := JOB_KEYWORDS.filter fun kw => substrS kw textLower
  (decide (minKeywords ≤ matchedKeywords.length), matchedKeywords.length)

/-! ### The processed-message ledger (src/core/database.py) and the
deduplication gate (src/services/deduplicator.py) -/

/-- One row of the processed_messages table (database.py schema lines 25-34).
processed_at (DEFAULT CURRENT_TIMESTAMP) is carried as an integer timestamp. -/
structure ProcessedMessage where
  channelId : String
  messageId : Int
  contentHash : String
  processedAt : Int
  isJobPost : Bool
  matchScore : Option Int
deriving DecidableEq, Repr

/-- The processed_messages table contents, in insertion order. -/
abbrev Ledger := List ProcessedMessage

/-- The UNIQUE(channel_id, message_id) key of the table. -/
def pairHit (channelId : String) (messageId : Int) (r : ProcessedMessage) : Bool :=
  r.channelId == channelId && r.messageId == messageId

/-- Database.add_processed_message (database.py lines 233-248): INSERT OR IGNORE
under the UNIQUE(channel_id, message_id) constraint — a row is appended only when
no row with that key exists; otherwise the statement is a no-op. -/
def addProcessedMessage (db : Ledger) (now : Int) (channelId : String) (messageId : Int)
    (contentHash : String) (isJobPost : Bool) (matchScore : Option Int) : Ledger :=
  if db.any (pairHit channelId messageId) then db
  else
    db ++ [{ channelId := channelId, messageId := messageId, contentHash := contentHash,
             processedAt := now, isJobPost := isJobPost, matchScore := matchScore }]

/-- Database.is_message_processed (database.py lines 210-218): a SELECT; the
table is returned unchanged alongside the answer. -/
def isMessageProcessed (db : Ledger) (channelId : String) (messageId : Int) : Bool × Ledger :=
  (db.any (pairHit channelId messageId), db)

/-- Database.is_content_duplicate (database.py lines 220-231): a SELECT for a row
with the given content hash and processed_at > now − days; the table is returned
unchanged alongside the answer. -/
def isContentDuplicate (db : Ledger) (now : Int) (contentHash : String) (days : Int) :
    Bool × Ledger :=
  let cutoff := now - days * 86400
  (db.any (fun r => r.contentHash == contentHash && decide (cutoff < r.processedAt)), db)

/-- models.TelegramMessage (the fields the dedup path reads, plus identity). -/
structure TelegramMessage where
  channelId : String
  messageId : Int
  text : String
deriving DecidableEq, Repr

/-- Deduplicator.is_duplicate (deduplicator.py lines 28-53): the exact-ID lookup,
then the content-hash lookup within the dedup window; the ledger state is
threaded through every database call. -/
def isDuplicate (db : Ledger) (now : Int) (dedupWindowDays : Int) (m : TelegramMessage) :
    Bool × Ledger :=
  let r1 := isMessageProcessed db m.channelId m.messageId
  if r1.1 then (true, r1.2)
  else
    let contentHash := computeContentHash m.text
    let r2 := isContentDuplicate r1.2 now contentHash dedupWindowDays
    if r2.1 then (true, r2.2) else (false, r2.2)

/-- Deduplicator.mark_processed (deduplicator.py lines 55-76): hash the text and
record the message via add_processed_message. -/
def markProcessed (db : Ledger) (now : Int) (m : TelegramMessage) (isJobPost : Bool)
    (matchScore : Option Int) : Ledger :=
  addProcessedMessage db now m.channelId m.messageId (computeContentHash m.text)
    isJobPost matchScore

/-- "t1 and t2 differ only in numeric substrings and in letter casing",
formalized: lowercasing and deleting every digit character yields equal texts
(used by the C7 counterexample). -/
def stripDigitsLower (t : String) : String :=
  String.mk ((lowerL t.data).filter (fun c => !c.isDigit))

/-! ### Lemmas and claim theorems -/

theorem urlMatchAt_rest_length {cs url rest : List Char}
    (h : urlMatchAt cs = some (url, rest)) : rest.length < cs.length := by
  unfold urlMatchAt at h
  simp only at h
  split at h
  · rename_i h8
    have hlen : 8 ≤ cs.length := by
      have := List.IsPrefix.length_le (List.isPrefixOf_iff_prefix.mp h8)
      simpa using this
    split at h
    · simp at h
    · simp only [Option.some.injEq, Prod.mk.injEq] at h
      obtain ⟨-, h2⟩ := h
      rw [← h2]
      simp only [List.length_drop]
      omega
  · split at h
    · rename_i h7
      have hlen : 7 ≤ cs.length := by
        have := List.IsPrefix.length_le (List.isPrefixOf_iff_prefix.mp h7)
        simpa using this
      split at h
      · simp at h
      · simp only [Option.some.injEq, Prod.mk.injEq] at h
        obtain ⟨-, h2⟩ := h
        rw [← h2]
        simp only [List.length_drop]
        omega
    · simp at h

theorem dropWhileLenLe (p : Char → Bool) (l : List Char) :
    (l.dropWhile p).length ≤ l.length := by
  induction l with
  | nil => simp [List.dropWhile]
  | cons a t ih =>
    simp only [List.dropWhile]
    split
    · exact Nat.le_trans ih (by simp)
    · exact Nat.le_refl _

/-- The fuel of the URL scan is irrelevant once it covers the input length. -/
theorem urlScanF_fuel : ∀ (f1 : Nat) (cs : List Char) (f2 : Nat),
    cs.length ≤ f1 → cs.length ≤ f2 → urlScanF f1 cs = urlScanF f2 cs := by
  intro f1
  induction f1 with
  | zero =>
    intro cs f2 h1 h2
    have hnil : cs = [] := List.length_eq_zero.mp (Nat.le_zero.mp h1)
    subst hnil
    cases f2 <;> rfl
  | succ f ih =>
    intro cs f2 h1 h2
    cases cs with
    | nil => cases f2 <;> rfl
    | cons c rest =>
      obtain ⟨f2', rfl⟩ : ∃ f2', f2 = f2' + 1 := by
        cases f2 with
        | zero => simp at h2
        | succ n => exact ⟨n, rfl⟩
      simp only [urlScanF]
      cases hm : urlMatchAt (c :: rest) with
      | some pair =>
        obtain ⟨url, after⟩ := pair
        have hlen := urlMatchAt_rest_length hm
        simp only [List.length_cons] at h1 h2 hlen
        dsimp only
        rw [ih after f2' (by omega) (by omega)]
      | none =>
        simp only [List.length_cons] at h1 h2
        dsimp only
        rw [ih rest f2' (by omega) (by omega)]

theorem urlScan_cons_some {c : Char} {rest url after : List Char}
    (hm : urlMatchAt (c :: rest) = some (url, after)) :
    urlScan (c :: rest) = (url :: (urlScan after).1, (urlScan after).2) := by
  have hlen := urlMatchAt_rest_length hm
  simp only [List.length_cons] at hlen
  unfold urlScan
  simp only [List.length_cons, urlScanF, hm]
  rw [urlScanF_fuel rest.length after after.length (by omega) (Nat.le_refl _)]

theorem urlScan_cons_none {c : Char} {rest : List Char}
    (hm : urlMatchAt (c :: rest) = none) :
    urlScan (c :: rest) = ((urlScan rest).1, c :: (urlScan rest).2) := by
  unfold urlScan
  simp only [List.length_cons, urlScanF, hm]

/-- When the scan finds no URL, the residual text is the input unchanged. -/
theorem urlScanF_residual : ∀ (fuel : Nat) (cs : List Char),
    (urlScanF fuel cs).1 = [] → (urlScanF fuel cs).2 = cs := by
  intro fuel
  induction fuel with
  | zero => intro cs _; rfl
  | succ f ih =>
    intro cs h2
    cases cs with
    | nil => rfl
    | cons c rest =>
      simp only [urlScanF] at h2 ⊢
      cases hm : urlMatchAt (c :: rest) with
      | some pair =>
        obtain ⟨url, after⟩ := pair
        simp only [hm] at h2
        simp at h2
      | none =>
        simp only [hm] at h2 ⊢
        rw [ih rest h2]

/-- When the scan finds no URL, the residual text is the input unchanged. -/
theorem urlScan_residual_of_no_match {cs : List Char} (h : (urlScan cs).1 = []) :
    (urlScan cs).2 = cs := urlScanF_residual cs.length cs h

/-- C1: for every CV state, cosine similarity, extracted skill sets, job post and
filter set, the score CVMatcher.match returns is an integer clamped to [0, 100]
(the combination int(semantic + keyword + adjustments) is followed by
max(0, min(100, total)), and the no-CV branch returns 0). -/
theorem match_score_clamped (cv : Option UserCVData) (similarity : ℚ)
    (jobSkills : Finset String) (post : JobPost) (filtersOpt : Option UserFilters) :
    0 ≤ (matchJob cv similarity jobSkills post filtersOpt).score ∧
      (matchJob cv similarity jobSkills post filtersOpt).score ≤ 100 := by
  cases cv with
  | none => simp [matchJob]
  | some cvData =>
    simp only [matchJob]
    exact ⟨le_max_left 0 _, max_le (by norm_num) (min_le_left 100 _)⟩

/-- C2: when no CV is loaded for the user, CVMatcher.match returns the constant
degenerate result — score 0 with the single reason "No CV set" (the wording the
source uses for the absent profile), no filter reasons, zero sub-scores —
independently of the job post, the filters, the similarity and the extracted
skills, so no further computation takes place and (the Lean model being total)
nothing is raised. -/
theorem match_without_cv (similarity : ℚ) (jobSkills : Finset String)
    (post : JobPost) (filtersOpt : Option UserFilters) :
    matchJob none similarity jobSkills post filtersOpt =
      { score := 0, matchReasons := ["No CV set"], filterReasons := [],
        semanticScore := 0, keywordScore := 0 } := rfl

/-- C3: the keyword sub-score is min(matched, 8) * 7 where matched is the size of
the intersection of the post's extracted skill tokens with the CV skill set; it
reaches 56, which exceeds the nominal 25-point category ceiling. -/
theorem keyword_score_formula :
    (∀ jobSkills cvSkills : Finset String,
      (calculateKeywordScore jobSkills cvSkills).1 =
        ((min (cvSkills ∩ jobSkills).card 8 * 7 : Nat) : ℚ)) ∧
    (∃ jobSkills cvSkills : Finset String,
      (calculateKeywordScore jobSkills cvSkills).1 = 56) ∧ (25 : ℚ) < 56 := by
  refine ⟨fun js cs => rfl,
    ⟨{"a", "b", "c", "d", "e", "f", "g", "h"}, {"a", "b", "c", "d", "e", "f", "g", "h"}, ?_⟩,
    by norm_num⟩
  decide

/-- C4: with a non-empty excluded-keyword list, if some excluded keyword
substring-matches the post text (case-insensitively), the rule adjustments drop
by exactly 10 relative to the same filters without exclusions — once, however
many keywords match — and the filter reasons gain exactly one exclusion entry
naming the first matching keyword; if none matches, the rules are unchanged. -/
theorem excluded_keyword_once (post : JobPost) (filters : UserFilters)
    (hne : filters.excluded ≠ []) :
    (∀ kw, firstExcludedMatch filters.excluded (pyLower post.rawText) = some kw →
      applyRules post filters =
        ((applyRules post { filters with excluded := [] }).1 - 10,
         (applyRules post { filters with excluded := [] }).2.1,
         (seniorityRule post filters).2.2 ++
           (["Contains excluded keyword: " ++ kw] ++ (locationRule post filters).2.2))) ∧
    (firstExcludedMatch filters.excluded (pyLower post.rawText) = none →
      applyRules post filters = applyRules post { filters with excluded := [] }) ∧
    (applyRules post { filters with excluded := [] }).2.2 =
      (seniorityRule post filters).2.2 ++ (locationRule post filters).2.2 := by
  have hr : remoteRule post { filters with excluded := [] } = remoteRule post filters := rfl
  have hs : seniorityRule post { filters with excluded := [] } =
    seniorityRule post filters := rfl
  have hq : requiredRule post { filters with excluded := [] } = requiredRule post filters := rfl
  have hl : locationRule post { filters with excluded := [] } = locationRule post filters := rfl
  have he0 : firstExcludedMatch [] (pyLower post.rawText) = none := rfl
  refine ⟨fun kw hkw => ?_, fun hnone => ?_, ?_⟩
  · simp only [applyRules, excludedRule, hkw, he0, hr, hs, hq, hl]
    refine Prod.ext ?_ (Prod.ext ?_ ?_) <;>
      simp [EXCLUDED_KEYWORD_PENALTY] <;> omega
  · simp only [applyRules, excludedRule, hnone, he0, hr, hs, hq, hl]
  · simp only [applyRules, excludedRule, he0, hr, hs, hq, hl]
    simp

/-- Witness for excluded_keyword_once: the post text contains both configured
excluded keywords ("php" first in the list order), the penalty is applied once
and the single exclusion reason names "php". -/
theorem excluded_keyword_once_witness :
    applyRules { rawText := "We use Java and PHP" } { excluded := ["php", "java"] } =
      ((applyRules { rawText := "We use Java and PHP" } {}).1 - 10,
       (applyRules { rawText := "We use Java and PHP" } {}).2.1,
       (seniorityRule { rawText := "We use Java and PHP" } { excluded := ["php", "java"] }).2.2 ++
         (["Contains excluded keyword: " ++ "php"] ++
           (locationRule { rawText := "We use Java and PHP" }
             { excluded := ["php", "java"] }).2.2)) :=
  (excluded_keyword_once { rawText := "We use Java and PHP" } { excluded := ["php", "java"] }
    (by decide)).1 "php" (by decide)

/-- C9: with non-empty location preferences and a non-empty post location, a
case-insensitive substring match of some preference yields only a reason (no
adjustment); a mismatch on a post that is not remote yields exactly −10 and a
location filter reason; a mismatch on a remote post changes nothing. -/
theorem location_rule_cases (post : JobPost) (filters : UserFilters) (loc : String)
    (hlocs : filters.locations ≠ []) (hloc : post.location = some loc) (hne : loc ≠ "") :
    (filters.locations.any (fun l => substrS (pyLower l) (pyLower loc)) = true →
      applyRules post filters =
        ((applyRules post { filters with locations := [] }).1,
         (applyRules post { filters with locations := [] }).2.1 ++ ["Location: " ++ loc],
         (applyRules post { filters with locations := [] }).2.2)) ∧
    (filters.locations.any (fun l => substrS (pyLower l) (pyLower loc)) = false →
      post.isRemote ≠ some true →
      applyRules post filters =
        ((applyRules post { filters with locations := [] }).1 - 10,
         (applyRules post { filters with locations := [] }).2.1,
         (applyRules post { filters with locations := [] }).2.2 ++
           ["Location: " ++ loc ++ " (wanted: " ++
             String.intercalate ", " filters.locations ++ ")"])) ∧
    (filters.locations.any (fun l => substrS (pyLower l) (pyLower loc)) = false →
      post.isRemote = some true →
      applyRules post filters = applyRules post { filters with locations := [] }) := by
  have hr : remoteRule post { filters with locations := [] } = remoteRule post filters := rfl
  have hs : seniorityRule post { filters with locations := [] } =
    seniorityRule post filters := rfl
  have hq : requiredRule post { filters with locations := [] } = requiredRule post filters := rfl
  have he : excludedRule post { filters with locations := [] } = excludedRule post filters := rfl
  have hl0 : locationRule post { filters with locations := [] } = (0, [], []) := by
    simp only [locationRule, hloc]
    rw [if_neg (by simp)]
  refine ⟨fun hmatch => ?_, fun hmatch hrem => ?_, fun hmatch hrem => ?_⟩
  · have hcase : locationRule post filters = (0, ["Location: " ++ loc], []) := by
      simp only [locationRule, hloc]
      rw [if_pos ⟨hlocs, hne⟩, if_pos hmatch]
    simp only [applyRules, hr, hs, hq, he, hl0, hcase]
    refine Prod.ext ?_ (Prod.ext ?_ ?_) <;> simp
  · have hcase : locationRule post filters = (LOCATION_MISMATCH_PENALTY, [],
        ["Location: " ++ loc ++ " (wanted: " ++
          String.intercalate ", " filters.locations ++ ")"]) := by
      simp only [locationRule, hloc]
      rw [if_pos ⟨hlocs, hne⟩, if_neg (by simp [hmatch]), if_pos hrem]
    simp only [applyRules, hr, hs, hq, he, hl0, hcase]
    refine Prod.ext ?_ (Prod.ext ?_ ?_) <;>
      simp [LOCATION_MISMATCH_PENALTY] <;> omega
  · have hcase : locationRule post filters = (0, [], []) := by
      simp only [locationRule, hloc]
      rw [if_pos ⟨hlocs, hne⟩, if_neg (by simp [hmatch]), if_neg (by simp [hrem])]
    simp only [applyRules, hr, hs, hq, he, hl0, hcase]

/-- Witness for location_rule_cases: preferences [London, Paris], post located in
Berlin and explicitly not remote — the −10 penalty and the mismatch reason. -/
theorem location_rule_cases_witness :
    applyRules { rawText := "x", location := some "Berlin", isRemote := some false }
        { locations := ["London", "Paris"] } =
      ((applyRules { rawText := "x", location := some "Berlin", isRemote := some false } {}).1 - 10,
       (applyRules { rawText := "x", location := some "Berlin", isRemote := some false } {}).2.1,
       (applyRules { rawText := "x", location := some "Berlin", isRemote := some false } {}).2.2 ++
         ["Location: " ++ "Berlin" ++ " (wanted: " ++
           String.intercalate ", " ["London", "Paris"] ++ ")"]) :=
  (location_rule_cases { rawText := "x", location := some "Berlin", isRemote := some false }
    { locations := ["London", "Paris"] } "Berlin" (by decide) rfl (by decide)).2.1
    (by decide) (by decide)

/-- C8: is_job_post classifies a text as a job post exactly when the number of
distinct vocabulary keywords contained (case-insensitively) in it reaches the
configured minimum, the returned count is the number of matching vocabulary
entries (the vocabulary has no duplicates), and the default minimum is 2. -/
theorem job_classification_threshold (minKeywords : Nat) (text : String) :
    ((isJobPost minKeywords text).1 = true ↔
      minKeywords ≤ (isJobPost minKeywords text).2) ∧
    (isJobPost minKeywords text).2 =
      (JOB_KEYWORDS.filter fun kw => substrS kw (pyLower text)).length ∧
    JOB_KEYWORDS.Nodup ∧ MIN_KEYWORDS = 2 := by
  refine ⟨?_, rfl, by decide, rfl⟩
  simp [isJobPost]

/-- is_duplicate, written as a pure pair: the flag is the disjunction of the two
lookups and the ledger is passed through unchanged. -/
theorem isDuplicate_eq (db : Ledger) (now w : Int) (m : TelegramMessage) :
    isDuplicate db now w m =
      (db.any (pairHit m.channelId m.messageId) ||
        db.any (fun r => r.contentHash == computeContentHash m.text &&
          decide (now - w * 86400 < r.processedAt)), db) := by
  unfold isDuplicate isMessageProcessed isContentDuplicate
  cases h1 : db.any (pairHit m.channelId m.messageId) <;>
    cases h2 : db.any (fun r => r.contentHash == computeContentHash m.text &&
      decide (now - w * 86400 < r.processedAt)) <;> simp [h1, h2]

/-- C10: is_duplicate only reads the processed-message ledger — the ledger after
the call is the ledger before it — and its answer is determined by the existing
records alone: true exactly when a record carries the message's
(channel_id, message_id) key, or a record carries the same content hash with
processed_at inside the dedup window. -/
theorem is_duplicate_pure_lookup (db : Ledger) (now dedupWindowDays : Int)
    (m : TelegramMessage) :
    (isDuplicate db now dedupWindowDays m).2 = db ∧
    ((isDuplicate db now dedupWindowDays m).1 = true ↔
      (∃ r ∈ db, pairHit m.channelId m.messageId r = true) ∨
      (∃ r ∈ db, r.contentHash = computeContentHash m.text ∧
        now - dedupWindowDays * 86400 < r.processedAt)) := by
  rw [isDuplicate_eq]
  refine ⟨rfl, ?_⟩
  simp [List.any_eq_true]

/-- add_processed_message leaves a key's record count at 1 when it was positive,
and raises it from 0 to 1 otherwise (INSERT OR IGNORE under the UNIQUE key). -/
theorem addProcessedMessage_countP (db : Ledger) (now : Int) (cid : String) (mid : Int)
    (ch : String) (j : Bool) (s : Option Int) :
    (addProcessedMessage db now cid mid ch j s).countP (pairHit cid mid) =
      max (db.countP (pairHit cid mid)) 1 := by
  unfold addProcessedMessage
  split
  · rename_i h
    have hpos : 0 < db.countP (pairHit cid mid) := by
      rw [List.countP_pos_iff]
      simpa [List.any_eq_true] using h
    exact (Nat.max_eq_left hpos).symm
  · rename_i h
    have hzero : db.countP (pairHit cid mid) = 0 := by
      rw [List.countP_eq_zero]
      intro a ha
      rw [Bool.not_eq_true, List.any_eq_false] at h
      exact h a ha
    rw [List.countP_append, hzero]
    simp [pairHit]

/-- C5: marking two messages with the same (channel_id, message_id) key never
fails (the model is total, as INSERT OR IGNORE swallows the unique-key conflict)
and leaves exactly one ledger record for that key, provided the ledger respected
the UNIQUE constraint beforehand. -/
theorem mark_processed_idempotent (db : Ledger) (t1 t2 : Int) (m1 m2 : TelegramMessage)
    (j1 j2 : Bool) (s1 s2 : Option Int)
    (hkey : db.countP (pairHit m1.channelId m1.messageId) ≤ 1)
    (hc : m2.channelId = m1.channelId) (hm : m2.messageId = m1.messageId) :
    (markProcessed (markProcessed db t1 m1 j1 s1) t2 m2 j2 s2).countP
      (pairHit m1.channelId m1.messageId) = 1 := by
  unfold markProcessed
  rw [hc, hm, addProcessedMessage_countP, addProcessedMessage_countP]
  omega

/-- Witness for mark_processed_idempotent: the same (channel, message) key marked
twice into an empty ledger, with different outcomes and even different text. -/
theorem mark_processed_idempotent_witness :
    (markProcessed (markProcessed [] 100 { channelId := "c1", messageId := 5, text := "hello" }
        false none) 200 { channelId := "c1", messageId := 5, text := "hello world" }
        true (some 80)).countP (pairHit "c1" 5) = 1 :=
  mark_processed_idempotent [] 100 200
    { channelId := "c1", messageId := 5, text := "hello" }
    { channelId := "c1", messageId := 5, text := "hello world" }
    false true none (some 80) (by decide) rfl rfl

theorem charToNat_ofNat (n : Nat) (h : n.isValidChar) : (Char.ofNat n).toNat = n := by
  unfold Char.ofNat
  rw [dif_pos h]
  unfold Char.ofNatAux Char.toNat
  simp [Nat.toUInt32, UInt32.toNat]

theorem asciiLowerCh_idem (c : Char) : asciiLowerCh (asciiLowerCh c) = asciiLowerCh c := by
  unfold asciiLowerCh
  split
  · rename_i h
    obtain ⟨h1, h2⟩ := h
    have hc1 : 65 ≤ c.toNat := h1
    have hc2 : c.toNat ≤ 90 := h2
    have hval : (c.toNat + 32).isValidChar := by
      left
      omega
    have ht : (Char.ofNat (c.toNat + 32)).toNat = c.toNat + 32 := charToNat_ofNat _ hval
    rw [if_neg]
    intro hcon
    obtain ⟨-, hc4⟩ := hcon
    have : (Char.ofNat (c.toNat + 32)).toNat ≤ 90 := hc4
    omega
  · rfl

theorem lowered_mem {cs : List Char} {x : Char} (h : x ∈ lowerL cs) :
    asciiLowerCh x = x := by
  unfold lowerL at h
  obtain ⟨c, -, rfl⟩ := List.mem_map.mp h
  exact asciiLowerCh_idem c

theorem lowerL_noop {cs : List Char} (h : ∀ x ∈ cs, asciiLowerCh x = x) :
    lowerL cs = cs := by
  unfold lowerL
  induction cs with
  | nil => rfl
  | cons a t ih =>
    simp only [List.map_cons]
    rw [h a (List.mem_cons_self a t), ih fun x hx => h x (List.mem_cons_of_mem a hx)]

theorem takeWhile_all_append {p : Char → Bool} {w : List Char} (a : Char) (l : List Char)
    (hw : ∀ x ∈ w, p x = true) (ha : p a = false) :
    (w ++ a :: l).takeWhile p = w := by
  induction w with
  | nil => simp [List.takeWhile, ha]
  | cons c t ih =>
    have hc : p c = true := hw c (List.mem_cons_self c t)
    simp only [List.cons_append, List.takeWhile_cons, hc, if_true]
    rw [ih fun x hx => hw x (List.mem_cons_of_mem c hx)]

theorem dropWhile_all_append {p : Char → Bool} {w : List Char} (a : Char) (l : List Char)
    (hw : ∀ x ∈ w, p x = true) (ha : p a = false) :
    (w ++ a :: l).dropWhile p = a :: l := by
  induction w with
  | nil => simp [List.dropWhile, ha]
  | cons c t ih =>
    have hc : p c = true := hw c (List.mem_cons_self c t)
    simp only [List.cons_append, List.dropWhile_cons, hc, if_true]
    exact ih fun x hx => hw x (List.mem_cons_of_mem c hx)

theorem takeWhile_all {p : Char → Bool} {w : List Char} (hw : ∀ x ∈ w, p x = true) :
    w.takeWhile p = w := by
  induction w with
  | nil => rfl
  | cons c t ih =>
    simp only [List.takeWhile_cons, hw c (List.mem_cons_self c t), if_true]
    rw [ih fun x hx => hw x (List.mem_cons_of_mem c hx)]

theorem dropWhile_all {p : Char → Bool} {w : List Char} (hw : ∀ x ∈ w, p x = true) :
    w.dropWhile p = [] := by
  induction w with
  | nil => rfl
  | cons c t ih =>
    simp only [List.dropWhile_cons, hw c (List.mem_cons_self c t), if_true]
    exact ih fun x hx => hw x (List.mem_cons_of_mem c hx)

theorem joinSp_mem {ws : List (List Char)} {x : Char} (h : x ∈ joinSp ws) :
    x = ' ' ∨ ∃ w ∈ ws, x ∈ w := by
  induction ws with
  | nil => simp [joinSp] at h
  | cons w rest ih =>
    cases rest with
    | nil =>
      simp only [joinSp] at h
      exact Or.inr ⟨w, List.mem_cons_self w [], h⟩
    | cons w2 rest2 =>
      simp only [joinSp, List.mem_append, List.mem_cons] at h
      rcases h with h | h | h
      · exact Or.inr ⟨w, List.mem_cons_self _ _, h⟩
      · exact Or.inl h
      · rcases ih h with h' | ⟨w', hw', hx⟩
        · exact Or.inl h'
        · exact Or.inr ⟨w', List.mem_cons_of_mem w hw', hx⟩

theorem pyWordsF_fuel : ∀ (f1 : Nat) (cs : List Char) (f2 : Nat),
    cs.length ≤ f1 → cs.length ≤ f2 → pyWordsF f1 cs = pyWordsF f2 cs := by
  intro f1
  induction f1 with
  | zero =>
    intro cs f2 h1 h2
    have hnil : cs = [] := List.length_eq_zero.mp (Nat.le_zero.mp h1)
    subst hnil
    cases f2 <;> rfl
  | succ f ih =>
    intro cs f2 h1 h2
    cases cs with
    | nil => cases f2 <;> rfl
    | cons c rest =>
      obtain ⟨f2p, rfl⟩ : ∃ n, f2 = n + 1 := by
        cases f2 with
        | zero => simp at h2
        | succ n => exact ⟨n, rfl⟩
      simp only [pyWordsF]
      simp only [List.length_cons] at h1 h2
      by_cases hc : isSpaceCh c = true
      · rw [if_pos hc, if_pos hc]
        exact ih rest f2p (by omega) (by omega)
      · rw [if_neg hc, if_neg hc]
        have hd : (rest.dropWhile fun d => !isSpaceCh d).length ≤ rest.length :=
          dropWhileLenLe _ _
        rw [ih (rest.dropWhile fun d => !isSpaceCh d) f2p (by omega) (by omega)]

theorem pyWords_cons_space {c : Char} {rest : List Char} (hc : isSpaceCh c = true) :
    pyWords (c :: rest) = pyWords rest := by
  unfold pyWords
  simp only [List.length_cons, pyWordsF, hc, if_true]

theorem pyWords_cons_nonspace {c : Char} {rest : List Char} (hc : isSpaceCh c = false) :
    pyWords (c :: rest) =
      (c :: rest.takeWhile (fun d => !isSpaceCh d)) ::
        pyWords (rest.dropWhile (fun d => !isSpaceCh d)) := by
  unfold pyWords
  simp only [List.length_cons, pyWordsF]
  rw [if_neg (by simp [hc])]
  rw [pyWordsF_fuel rest.length (rest.dropWhile fun d => !isSpaceCh d)
    (rest.dropWhile fun d => !isSpaceCh d).length (dropWhileLenLe _ _) (Nat.le_refl _)]

theorem pyWordsF_mem : ∀ (fuel : Nat) (cs : List Char) (w : List Char),
    w ∈ pyWordsF fuel cs → ∀ x ∈ w, x ∈ cs := by
  intro fuel
  induction fuel with
  | zero => intro cs w hw; simp [pyWordsF] at hw
  | succ f ih =>
    intro cs w hw x hx
    cases cs with
    | nil => simp [pyWordsF] at hw
    | cons c rest =>
      simp only [pyWordsF] at hw
      by_cases hc : isSpaceCh c
      · rw [if_pos hc] at hw
        exact List.mem_cons_of_mem c (ih rest w hw x hx)
      · rw [if_neg hc] at hw
        rcases List.mem_cons.mp hw with h | h
        · subst h
          rcases List.mem_cons.mp hx with h' | h'
          · exact h' ▸ List.mem_cons_self c rest
          · exact List.mem_cons_of_mem c
              ((List.takeWhile_sublist _).subset h')
        · have := ih _ w h x hx
          exact List.mem_cons_of_mem c ((List.dropWhile_sublist _).subset this)

theorem pyWordsF_shape : ∀ (fuel : Nat) (cs : List Char) (w : List Char),
    w ∈ pyWordsF fuel cs → w ≠ [] ∧ ∀ x ∈ w, isSpaceCh x = false := by
  intro fuel
  induction fuel with
  | zero => intro cs w hw; simp [pyWordsF] at hw
  | succ f ih =>
    intro cs w hw
    cases cs with
    | nil => simp [pyWordsF] at hw
    | cons c rest =>
      simp only [pyWordsF] at hw
      by_cases hc : isSpaceCh c
      · rw [if_pos hc] at hw
        exact ih rest w hw
      · rw [if_neg hc] at hw
        rcases List.mem_cons.mp hw with h | h
        · subst h
          refine ⟨by simp, ?_⟩
          intro x hx
          rcases List.mem_cons.mp hx with h' | h'
          · subst h'
            exact Bool.not_eq_true _ ▸ hc
          · have := List.mem_takeWhile_imp h'
            simpa using this
        · exact ih _ w h

theorem pyWords_joinSp : ∀ (ws : List (List Char)),
    (∀ w ∈ ws, w ≠ [] ∧ ∀ x ∈ w, isSpaceCh x = false) →
    pyWords (joinSp ws) = ws := by
  intro ws
  induction ws with
  | nil => intro _; rfl
  | cons w rest ih =>
    intro h
    obtain ⟨hne, hns⟩ := h w (List.mem_cons_self w rest)
    obtain ⟨c, w', rfl⟩ : ∃ c w', w = c :: w' := by
      cases w with
      | nil => exact absurd rfl hne
      | cons c w' => exact ⟨c, w', rfl⟩
    have hcns : isSpaceCh c = false := hns c (List.mem_cons_self c w')
    have hwns : ∀ x ∈ w', (fun d => !isSpaceCh d) x = true := by
      intro x hx
      simp [hns x (List.mem_cons_of_mem c hx)]
    cases rest with
    | nil =>
      simp only [joinSp]
      rw [pyWords_cons_nonspace hcns, takeWhile_all hwns, dropWhile_all hwns]
      rfl
    | cons w2 rest2 =>
      simp only [joinSp, List.cons_append]
      rw [pyWords_cons_nonspace hcns]
      rw [takeWhile_all_append ' ' (joinSp (w2 :: rest2)) hwns (by simp [isSpaceCh])]
      rw [dropWhile_all_append ' ' (joinSp (w2 :: rest2)) hwns (by simp [isSpaceCh])]
      rw [pyWords_cons_space (by simp [isSpaceCh])]
      rw [ih fun x hx => h x (List.mem_cons_of_mem (c :: w') hx)]

theorem urlMatchAt_mem {cs url after : List Char}
    (h : urlMatchAt cs = some (url, after)) :
    (∀ x ∈ url, x ∈ cs) ∧ (∀ x ∈ after, x ∈ cs) := by
  unfold urlMatchAt at h
  simp only at h
  split at h
  · rename_i h8
    split at h
    · simp at h
    · simp only [Option.some.injEq, Prod.mk.injEq] at h
      obtain ⟨h1, h2⟩ := h
      subst h1; subst h2
      constructor
      · intro x hx
        rcases List.mem_append.mp hx with hx | hx
        · exact (List.isPrefixOf_iff_prefix.mp h8).subset hx
        · exact (List.drop_subset 8 cs) ((List.takeWhile_sublist _).subset hx)
      · intro x hx
        exact (List.drop_subset 8 cs) ((List.drop_subset _ _) hx)
  · split at h
    · rename_i h7
      split at h
      · simp at h
      · simp only [Option.some.injEq, Prod.mk.injEq] at h
        obtain ⟨h1, h2⟩ := h
        subst h1; subst h2
        constructor
        · intro x hx
          rcases List.mem_append.mp hx with hx | hx
          · exact (List.isPrefixOf_iff_prefix.mp h7).subset hx
          · exact (List.drop_subset 7 cs) ((List.takeWhile_sublist _).subset hx)
        · intro x hx
          exact (List.drop_subset 7 cs) ((List.drop_subset _ _) hx)
    · simp at h

theorem urlScanF_mem : ∀ (fuel : Nat) (cs : List Char),
    (∀ x ∈ (urlScanF fuel cs).2, x ∈ cs) ∧
    (∀ u ∈ (urlScanF fuel cs).1, ∀ x ∈ u, x ∈ cs) := by
  intro fuel
  induction fuel with
  | zero => intro cs; exact ⟨fun x hx => hx, by simp [urlScanF]⟩
  | succ f ih =>
    intro cs
    cases cs with
    | nil => exact ⟨by simp [urlScanF], by simp [urlScanF]⟩
    | cons c rest =>
      simp only [urlScanF]
      cases hm : urlMatchAt (c :: rest) with
      | some pair =>
        obtain ⟨url, after⟩ := pair
        dsimp only
        obtain ⟨hu, ha⟩ := urlMatchAt_mem hm
        constructor
        · intro x hx
          exact ha x ((ih after).1 x hx)
        · intro u hu' x hx
          rcases List.mem_cons.mp hu' with h | h
          · exact hu x (h ▸ hx)
          · exact ha x ((ih after).2 u h x hx)
      | none =>
        dsimp only
        constructor
        · intro x hx
          rcases List.mem_cons.mp hx with h | h
          · exact h ▸ List.mem_cons_self c rest
          · exact List.mem_cons_of_mem c ((ih rest).1 x h)
        · intro u hu x hx
          exact List.mem_cons_of_mem c ((ih rest).2 u hu x hx)

theorem urlScanF_url_shape : ∀ (fuel : Nat) (cs : List Char),
    ∀ u ∈ (urlScanF fuel cs).1, u.head? = some 'h' ∧ ∀ x ∈ u, isSpaceCh x = false := by
  intro fuel
  induction fuel with
  | zero => intro cs u hu; simp [urlScanF] at hu
  | succ f ih =>
    intro cs u hu
    cases cs with
    | nil => simp [urlScanF] at hu
    | cons c rest =>
      simp only [urlScanF] at hu
      cases hm : urlMatchAt (c :: rest) with
      | some pair =>
        obtain ⟨url, after⟩ := pair
        rw [hm] at hu
        dsimp only at hu
        rcases List.mem_cons.mp hu with h | h
        · subst h
          unfold urlMatchAt at hm
          simp only at hm
          split at hm
          · split at hm
            · simp at hm
            · rename_i htk
              simp only [Option.some.injEq, Prod.mk.injEq] at hm
              obtain ⟨h1, -⟩ := hm
              subst h1
              refine ⟨rfl, ?_⟩
              intro x hx
              rcases List.mem_append.mp hx with hx | hx
              · fin_cases hx <;> rfl
              · have := List.mem_takeWhile_imp hx
                simpa using this
          · split at hm
            · split at hm
              · simp at hm
              · rename_i htk
                simp only [Option.some.injEq, Prod.mk.injEq] at hm
                obtain ⟨h1, -⟩ := hm
                subst h1
                refine ⟨rfl, ?_⟩
                intro x hx
                rcases List.mem_append.mp hx with hx | hx
                · fin_cases hx <;> rfl
                · have := List.mem_takeWhile_imp hx
                  simpa using this
            · simp at hm
        · exact ih after u h
      | none =>
        rw [hm] at hu
        dsimp only at hu
        exact ih rest u hu

theorem mapTokensF_mem {f : List Char → List Char}
    (hf : ∀ t, ∀ x ∈ f t, x ∈ t) : ∀ (fuel : Nat) (cs : List Char),
    ∀ x ∈ mapTokensF f fuel cs, x ∈ cs := by
  intro fuel
  induction fuel with
  | zero => intro cs x hx; exact hx
  | succ fl ih =>
    intro cs x hx
    cases cs with
    | nil => simp [mapTokensF] at hx
    | cons c rest =>
      simp only [mapTokensF] at hx
      by_cases hc : isSpaceCh c = true
      · rw [if_pos hc] at hx
        rcases List.mem_cons.mp hx with h | h
        · exact h ▸ List.mem_cons_self c rest
        · exact List.mem_cons_of_mem c (ih rest x h)
      · rw [if_neg hc] at hx
        rcases List.mem_append.mp hx with h | h
        · have := hf _ x h
          rcases List.mem_cons.mp this with h' | h'
          · exact h' ▸ List.mem_cons_self c rest
          · exact List.mem_cons_of_mem c ((List.takeWhile_sublist _).subset h')
        · exact List.mem_cons_of_mem c
            ((List.dropWhile_sublist _).subset (ih _ x h))

theorem numberSubF_mem : ∀ (fuel : Nat) (prev : Option Char) (cs : List Char),
    ∀ x ∈ numberSubF fuel prev cs, x ∈ cs := by
  intro fuel
  induction fuel with
  | zero => intro prev cs x hx; exact hx
  | succ f ih =>
    intro prev cs x hx
    cases cs with
    | nil => simp [numberSubF] at hx
    | cons c rest =>
      simp only [numberSubF] at hx
      by_cases hc : c.isDigit = true
      · rw [if_pos hc] at hx
        split at hx
        · exact List.mem_cons_of_mem c
            ((List.dropWhile_sublist _).subset (ih _ _ x hx))
        · rcases List.mem_append.mp hx with h | h
          · rcases List.mem_cons.mp h with h' | h'
            · exact h' ▸ List.mem_cons_self c rest
            · exact List.mem_cons_of_mem c ((List.takeWhile_sublist _).subset h')
          · exact List.mem_cons_of_mem c
              ((List.dropWhile_sublist _).subset (ih _ _ x h))
      · rw [if_neg hc] at hx
        rcases List.mem_cons.mp hx with h | h
        · exact h ▸ List.mem_cons_self c rest
        · exact List.mem_cons_of_mem c (ih _ _ x h)

theorem normalizeUrl_mem {u : List Char} : ∀ x ∈ normalizeUrl u, x ∈ u := by
  intro x hx
  unfold normalizeUrl at hx
  rw [List.mem_reverse] at hx
  have h1 := (List.dropWhile_sublist _).subset hx
  rw [List.mem_reverse] at h1
  exact (List.takeWhile_sublist _).subset h1

theorem normalizeUrl_shape {u : List Char} (hh : u.head? = some 'h')
    (hns : ∀ x ∈ u, isSpaceCh x = false) :
    normalizeUrl u ≠ [] ∧ ∀ x ∈ normalizeUrl u, isSpaceCh x = false := by
  refine ⟨?_, fun x hx => hns x (normalizeUrl_mem x hx)⟩
  obtain ⟨t, rfl⟩ : ∃ t, u = 'h' :: t := by
    cases u with
    | nil => simp at hh
    | cons a t =>
      simp only [List.head?, Option.some.injEq] at hh
      exact ⟨t, by rw [hh]⟩
  unfold normalizeUrl
  intro hcon
  rw [List.reverse_eq_nil_iff] at hcon
  have hmem : 'h' ∈ (('h' :: t).takeWhile (fun c => decide (c ≠ '?'))).reverse := by
    rw [List.mem_reverse]
    simp [List.takeWhile_cons]
  have hall := List.dropWhile_eq_nil_iff.mp hcon 'h' hmem
  simp at hall

/-- When no URL is found in the lowercased text, the normalizer returns the
cleaned residual (branch A of _normalize_text). -/
theorem normalizeCore_eq_residual {cs : List Char} (h : (urlScan (lowerL cs)).1 = []) :
    normalizeCore cs = collapseWs (numberSub (emailSub (lowerL cs))) := by
  unfold normalizeCore
  simp only [h, urlScan_residual_of_no_match h, List.isEmpty_nil, Bool.not_true,
    Bool.and_false, Bool.false_eq_true, if_false]

/-- Every character of a normalized text is lowercase-stable. -/
theorem normalizeCore_lowered {cs : List Char} : ∀ x ∈ normalizeCore cs, asciiLowerCh x = x := by
  intro x hx
  unfold normalizeCore at hx
  simp only at hx
  split at hx
  · rcases joinSp_mem hx with h | ⟨w, hw, hxw⟩
    · rw [h]; rfl
    · obtain ⟨u, hu, rfl⟩ := List.mem_map.mp hw
      have hxu := normalizeUrl_mem x hxw
      have := (urlScanF_mem (lowerL cs).length (lowerL cs)).2 u hu x hxu
      exact lowered_mem this
  · unfold collapseWs at hx
    rcases joinSp_mem hx with h | ⟨w, hw, hxw⟩
    · rw [h]; rfl
    · have h1 := pyWordsF_mem _ _ w hw x hxw
      have h2 := numberSubF_mem _ _ _ x h1
      have h3 := mapTokensF_mem (fun t x hx => by
        split at hx
        · simp at hx
        · exact hx) _ _ x h2
      have h4 := (urlScanF_mem (lowerL cs).length (lowerL cs)).1 x h3
      exact lowered_mem h4

/-- A normalized text is whitespace-collapsed. -/
theorem normalizeCore_collapsed {cs : List Char} :
    collapseWs (normalizeCore cs) = normalizeCore cs := by
  unfold normalizeCore
  simp only
  split
  · rename_i hcond
    unfold collapseWs
    have hshape : ∀ w ∈ List.map normalizeUrl (urlScan (lowerL cs)).1,
        w ≠ [] ∧ ∀ x ∈ w, isSpaceCh x = false := by
      intro w hw
      obtain ⟨u, hu, rfl⟩ := List.mem_map.mp hw
      obtain ⟨hh, hns⟩ := urlScanF_url_shape (lowerL cs).length (lowerL cs) u hu
      exact normalizeUrl_shape hh hns
    rw [pyWords_joinSp _ hshape]
  · unfold collapseWs
    have hshape : ∀ w ∈ pyWords (numberSub (emailSub (urlScan (lowerL cs)).2)),
        w ≠ [] ∧ ∀ x ∈ w, isSpaceCh x = false := by
      intro w hw
      exact pyWordsF_shape _ _ w hw
    rw [pyWords_joinSp _ hshape]

/-- C6 counterexample: normalization is not idempotent.  In
"https:12//x aaaaaaaaaaaaaaaaaaaaaa" no URL matches, but removing the standalone
number 12 creates "https://x", which the second pass extracts and removes. -/
theorem normalize_not_idempotent :
    normalizeText (normalizeText "https:12//x aaaaaaaaaaaaaaaaaaaaaa") ≠
      normalizeText "https:12//x aaaaaaaaaaaaaaaaaaaaaa" := by decide

/-- C6 amended: normalization is idempotent on every text whose normalized form
contains no URL match, no email match and no standalone-number match (the
counterexample shows the URL condition is necessary: stripping can synthesize
new URL-shaped substrings). -/
theorem normalize_idem_of_stable (s : String)
    (hurl : (urlScan (normalizeText s).data).1 = [])
    (hemail : emailSub (normalizeText s).data = (normalizeText s).data)
    (hnum : numberSub (normalizeText s).data = (normalizeText s).data) :
    normalizeText (normalizeText s) = normalizeText s := by
  have hdata : (normalizeText s).data = normalizeCore s.data := rfl
  rw [hdata] at hurl hemail hnum
  have hlow : lowerL (normalizeCore s.data) = normalizeCore s.data :=
    lowerL_noop (fun x hx => normalizeCore_lowered x hx)
  have hurl2 : (urlScan (lowerL (normalizeCore s.data))).1 = [] := by
    rw [hlow]; exact hurl
  have key : normalizeCore (normalizeCore s.data) = normalizeCore s.data := by
    rw [normalizeCore_eq_residual hurl2, hlow, hemail, hnum]
    exact normalizeCore_collapsed
  show String.mk (normalizeCore (normalizeText s).data) = normalizeText s
  rw [hdata, key]
  rfl

/-- Witness for normalize_idem_of_stable at a concrete stable input. -/
theorem normalize_idem_of_stable_witness :
    (urlScan (normalizeText "Hello   World").data).1 = [] ∧
    emailSub (normalizeText "Hello   World").data = (normalizeText "Hello   World").data ∧
    numberSub (normalizeText "Hello   World").data = (normalizeText "Hello   World").data ∧
    normalizeText (normalizeText "Hello   World") = normalizeText "Hello   World" :=
  ⟨by decide, by decide, by decide,
   normalize_idem_of_stable "Hello   World" (by decide) (by decide) (by decide)⟩

/-- C7 counterexample: "v1" and "v2" differ only in a numeric substring (after
lowercasing and deleting every digit they agree), yet their content hashes
differ — the normalizer only deletes standalone digit runs (\b\d+\b), and
these digits sit inside a word. -/
theorem content_hash_numeric_counterexample :
    stripDigitsLower "v1" = stripDigitsLower "v2" ∧
    computeContentHash "v1" ≠ computeContentHash "v2" := ⟨rfl, by decide⟩

/-- C7 amended: for texts with no URL match and no email match in their
lowercased form, which agree after lowercasing and removing standalone numeric
tokens (digit runs delimited by word boundaries), the content hashes agree. -/
theorem content_hash_numeric_casing_invariant (t1 t2 : String)
    (h1 : (urlScan (lowerL t1.data)).1 = []) (h2 : (urlScan (lowerL t2.data)).1 = [])
    (e1 : emailSub (lowerL t1.data) = lowerL t1.data)
    (e2 : emailSub (lowerL t2.data) = lowerL t2.data)
    (hnum : numberSub (lowerL t1.data) = numberSub (lowerL t2.data)) :
    computeContentHash t1 = computeContentHash t2 := by
  unfold computeContentHash normalizeText
  rw [normalizeCore_eq_residual h1, normalizeCore_eq_residual h2, e1, e2, hnum]

/-- Witness for content_hash_numeric_casing_invariant: texts differing in casing
and in a standalone salary figure hash identically. -/
theorem content_hash_numeric_casing_invariant_witness :
    (urlScan (lowerL "Python DEV 100".data)).1 = [] ∧
    (urlScan (lowerL "python dev 200".data)).1 = [] ∧
    emailSub (lowerL "Python DEV 100".data) = lowerL "Python DEV 100".data ∧
    emailSub (lowerL "python dev 200".data) = lowerL "python dev 200".data ∧
    numberSub (lowerL "Python DEV 100".data) = numberSub (lowerL "python dev 200".data) ∧
    computeContentHash "Python DEV 100" = computeContentHash "python dev 200" :=
  ⟨by decide, by decide, by decide, by decide, by decide,
   content_hash_numeric_casing_invariant "Python DEV 100" "python dev 200"
     (by decide) (by decide) (by decide) (by decide) (by decide)⟩

end JobBot
